import Mathlib

/-!
Verification of the SyncStream chunk/stream/tree engine.

This file gives a shallow embedding, in Lean, of the core of the SyncStream
repository (content-addressed chunk store, stream assembler, tree
synchronizer, hash and compression front-ends, atomic rename-exchange), and
proves or refutes the specification claims about it.

Machine integers are modelled as `Nat` with explicit reduction modulo `2^32`
or `2^64` where the Rust code relies on fixed-width arithmetic.  Fallible
Rust functions return `Except`/`Option`; a `todo!()` (a panic) is modelled as
`Option.none` at the call boundary.  External collaborators (the blake3 and
xxhash crates, the compression codecs, the HTTP client, the real filesystem)
are either implemented from their public algorithm definitions (the hashes,
which the repository's own golden tests pin down) or passed in as explicit
parameters, so every definition stays executable.
-/

set_option maxRecDepth 100000

namespace SyncStream

/-- Lowercase hexadecimal digit for a value below 16, as produced by
`to_hex`/`hex::encode` in the Rust code. -/
def hexDigit (n : Nat) : Char :=
  if n < 10 then Char.ofNat (48 + n) else Char.ofNat (87 + n)

/-- Two lowercase hex characters for one byte. -/
def byteToHex (b : Nat) : List Char := [hexDigit (b / 16), hexDigit (b % 16)]

/-- Hex string for a byte sequence (lowercase, two characters per byte). -/
def bytesToHex (bs : List Nat) : String := String.mk ((bs.map byteToHex).flatten)

/-- Little-endian bytes of a 32-bit word. -/
def u32LEBytes (w : Nat) : List Nat :=
  [w % 256, w / 256 % 256, w / 65536 % 256, w / 16777216 % 256]

/-- Little-endian bytes of a 64-bit word. -/
def u64LEBytes (x : Nat) : List Nat :=
  (List.range 8).map (fun i => (x >>> (8 * i)) % 256)

/-- Read a little-endian 32-bit word from the head of a byte list
(missing bytes read as zero, matching zero padding). -/
def readLE32 (l : List Nat) : Nat :=
  l.getD 0 0 + 256 * l.getD 1 0 + 65536 * l.getD 2 0 + 16777216 * l.getD 3 0

/-- Read a little-endian 64-bit word at offset `o` of a byte list. -/
def readLE64 (l : List Nat) (o : Nat) : Nat :=
  (List.range 8).foldr (fun i acc => acc * 256 + l.getD (o + i) 0) 0

/-! ### BLAKE3

Model of the external `blake3` crate, implemented from the public BLAKE3
algorithm definition.  The repository pins this collaborator down with golden
digests in its own tests (`src/hash.rs`, `src/stream/mod.rs`). -/

def UINT32_MOD : Nat := 4294967296

def add32 (a b : Nat) : Nat := (a + b) % UINT32_MOD

def rotr32 (x n : Nat) : Nat := ((x >>> n) ||| (x <<< (32 - n))) % UINT32_MOD

/-- Initial value words of BLAKE3 (the SHA-256 IV). -/
def blake3IV : List Nat :=
  [1779033703, 3144134277, 1013904242, 2773480762,
   1359893119, 2600822924, 528734635, 1541459225]

/-- Message word permutation applied between BLAKE3 rounds. -/
def blake3Permute (m : List Nat) : List Nat :=
  [m.getD 2 0, m.getD 6 0, m.getD 3 0, m.getD 10 0,
   m.getD 7 0, m.getD 0 0, m.getD 4 0, m.getD 13 0,
   m.getD 1 0, m.getD 11 0, m.getD 12 0, m.getD 5 0,
   m.getD 9 0, m.getD 14 0, m.getD 15 0, m.getD 8 0]

/-- The BLAKE3 quarter-round `g` acting on state positions `a b c d` with
message words `mx my`. -/
def gMix (v : List Nat) (a b c d mx my : Nat) : List Nat :=
  let va := add32 (add32 (v.getD a 0) (v.getD b 0)) mx
  let vd := rotr32 ((v.getD d 0) ^^^ va) 16
  let vc := add32 (v.getD c 0) vd
  let vb := rotr32 ((v.getD b 0) ^^^ vc) 12
  let va2 := add32 (add32 va vb) my
  let vd2 := rotr32 (vd ^^^ va2) 8
  let vc2 := add32 vc vd2
  let vb2 := rotr32 (vb ^^^ vc2) 7
  (((v.set a va2).set b vb2).set c vc2).set d vd2

/-- One full BLAKE3 round: four column mixes then four diagonal mixes. -/
def blake3Round (v m : List Nat) : List Nat :=
  let v1 := gMix v 0 4 8 12 (m.getD 0 0) (m.getD 1 0)
  let v2 := gMix v1 1 5 9 13 (m.getD 2 0) (m.getD 3 0)
  let v3 := gMix v2 2 6 10 14 (m.getD 4 0) (m.getD 5 0)
  let v4 := gMix v3 3 7 11 15 (m.getD 6 0) (m.getD 7 0)
  let v5 := gMix v4 0 5 10 15 (m.getD 8 0) (m.getD 9 0)
  let v6 := gMix v5 1 6 11 12 (m.getD 10 0) (m.getD 11 0)
  let v7 := gMix v6 2 7 8 13 (m.getD 12 0) (m.getD 13 0)
  gMix v7 3 4 9 14 (m.getD 14 0) (m.getD 15 0)

/-- Iterated rounds with the message permutation applied in between. -/
def blake3Rounds : Nat → List Nat → List Nat → List Nat
  | 0, v, _ => v
  | n + 1, v, m => blake3Rounds n (blake3Round v m) (blake3Permute m)

/-- The BLAKE3 compression function; returns the first eight output words
(the chaining value, which is also the 32-byte root output). -/
def blake3Compress (h m : List Nat) (counter blockLen flags : Nat) : List Nat :=
  let v0 := h.take 8 ++ blake3IV.take 4 ++
    [counter % UINT32_MOD, counter / UINT32_MOD % UINT32_MOD, blockLen, flags]
  let v := blake3Rounds 7 v0 m
  (List.range 8).map (fun i => (v.getD i 0) ^^^ (v.getD (i + 8) 0))

def CHUNK_START : Nat := 1
def CHUNK_END : Nat := 2
def PARENT : Nat := 4
def ROOT : Nat := 8

/-- Parse a block of at most 64 bytes into 16 little-endian words,
zero-padded. -/
def blockWords (blk : List Nat) : List Nat :=
  (List.range 16).map (fun i => readLE32 (blk.drop (4 * i)))

/-- Fuel-indexed splitting of a list into pieces of `n` elements (the last
piece may be short); with `fuel ≥ l.length` this is exact chunking. -/
def chunksOfF (n : Nat) : Nat → List α → List (List α)
  | 0, _ => []
  | _ + 1, [] => []
  | fuel + 1, x :: xs => (x :: xs).take n :: chunksOfF n fuel ((x :: xs).drop n)

/-- Split a list into pieces of `n` elements each, in order, the last piece
possibly short. -/
def chunksOf (n : Nat) (l : List α) : List (List α) := chunksOfF n l.length l

/-- Chaining-value fold over the 64-byte blocks of one BLAKE3 chunk.
`CHUNK_START` is set on the first block, `CHUNK_END` plus the caller's base
flags on the last. -/
def chunkCVLoop (t base : Nat) : Bool → List Nat → List (List Nat) → List Nat
  | _, cv, [] => cv
  | first, cv, blk :: rest =>
    let flags := (if first then CHUNK_START else 0) +
      (if rest.isEmpty then CHUNK_END + base else 0)
    chunkCVLoop t base false (blake3Compress cv (blockWords blk) t blk.length flags) rest

/-- The 64-byte blocks of a chunk; an empty chunk has one empty block. -/
def chunkBlocks (data : List Nat) : List (List Nat) :=
  if data.isEmpty then [[]] else chunksOf 64 data

/-- Chaining value of one BLAKE3 chunk with counter `t` and base flags. -/
def chunkCV (data : List Nat) (t base : Nat) : List Nat :=
  chunkCVLoop t base true blake3IV (chunkBlocks data)

/-- Largest power of two strictly below `n`, for `n ≥ 2` (left-subtree size
of the BLAKE3 chunk tree). -/
def largestPow2LtGo (n : Nat) : Nat → Nat → Nat
  | 0, p => p
  | fuel + 1, p => if 2 * p < n then largestPow2LtGo n fuel (2 * p) else p

def largestPow2Lt (n : Nat) : Nat := largestPow2LtGo n n 1

/-- Chaining value of a BLAKE3 subtree over a list of chunks (fuel-indexed;
`fuel ≥ chunkList.length` suffices). -/
def subtreeCV : Nat → List (List Nat) → Nat → Bool → List Nat
  | 0, _, _, _ => blake3IV
  | _ + 1, [], _, _ => blake3IV
  | _ + 1, [c], t0, isRoot => chunkCV c t0 (if isRoot then ROOT else 0)
  | fuel + 1, cs, t0, isRoot =>
    let p := largestPow2Lt cs.length
    blake3Compress blake3IV
      (subtreeCV fuel (cs.take p) t0 false ++ subtreeCV fuel (cs.drop p) (t0 + p) false)
      0 64 (PARENT + (if isRoot then ROOT else 0))

/-- The 32-byte BLAKE3 hash of a byte sequence. -/
def blake3Hash (input : List Nat) : List Nat :=
  let chunkList := if input.isEmpty then [[]] else chunksOf 1024 input
  ((subtreeCV chunkList.length chunkList 0 true).map u32LEBytes).flatten

/-- Hex digest of a byte sequence, as `blake3::Hash::to_hex` returns it. -/
def blake3Hex (input : List Nat) : String := bytesToHex (blake3Hash input)

/-! ### XXH3 (64-bit, seedless, default secret)

Model of the external `xxhash_rust` crate on inputs of 9 to 16 bytes (the
length class of the repository's golden-vector input), implemented from the
public XXH3 algorithm definition. -/

def UINT64_MOD : Nat := 18446744073709551616

/-- First 56 bytes of the XXH3 default secret. -/
def xxh3Secret : List Nat :=
  [0xb8, 0xfe, 0x6c, 0x39, 0x23, 0xa4, 0x4b, 0xbe,
   0x7c, 0x01, 0x81, 0x2c, 0xf7, 0x21, 0xad, 0x1c,
   0xde, 0xd4, 0x6d, 0xe9, 0x83, 0x90, 0x97, 0xdb,
   0x72, 0x40, 0xa4, 0xa4, 0xb7, 0xb3, 0x67, 0x1f,
   0xcb, 0x79, 0xe6, 0x4e, 0xcc, 0xc0, 0xe5, 0x78,
   0x82, 0x5a, 0xd0, 0x7d, 0xcc, 0xff, 0x72, 0x21,
   0xb8, 0x08, 0x46, 0x74, 0xf7, 0x43, 0x24, 0x8e]

/-- Byte swap of a 64-bit word. -/
def swap64 (x : Nat) : Nat :=
  (List.range 8).foldl (fun acc i => acc * 256 + (x >>> (8 * i)) % 256) 0

/-- The XXH3 avalanche finalizer. -/
def xxh3Avalanche (h : Nat) : Nat :=
  let h1 := h ^^^ (h >>> 37)
  let h2 := h1 * 0x165667919E3779F9 % UINT64_MOD
  h2 ^^^ (h2 >>> 32)

/-- Folded 128-bit product of two 64-bit words. -/
def mul128Fold64 (a b : Nat) : Nat := ((a * b) % UINT64_MOD) ^^^ (a * b / UINT64_MOD)

/-- XXH3-64 digest of an input of 9 to 16 bytes, seed 0, default secret. -/
def xxh3Len9to16 (input : List Nat) : Nat :=
  let len := input.length
  let bitflip1 := readLE64 xxh3Secret 24 ^^^ readLE64 xxh3Secret 32
  let bitflip2 := readLE64 xxh3Secret 40 ^^^ readLE64 xxh3Secret 48
  let inputLo := readLE64 input 0 ^^^ bitflip1
  let inputHi := readLE64 input (len - 8) ^^^ bitflip2
  xxh3Avalanche ((len + swap64 inputLo + inputHi + mul128Fold64 inputLo inputHi) % UINT64_MOD)

/-- Hex rendering of an XXH3 digest, as the Rust code's
`hex::encode(digest.to_le_bytes())` produces it. -/
def xxh3HexOfDigest (d : Nat) : String := bytesToHex (u64LEBytes (d % UINT64_MOD))

/-! ### The Hasher front-end (`src/hash.rs`) -/

/-- The two hash kinds of `src/hash.rs`. -/
inductive HashKind where
  | blake3
  | xxh3
deriving DecidableEq, Repr

/-- Streaming hasher state of `src/hash.rs`: an algorithm tag with the bytes
absorbed so far (both external hashers are streaming, so their state is
determined by the absorbed byte sequence). -/
inductive Hasher where
  | blake3St (acc : List Nat)
  | xxh3St (acc : List Nat)
deriving DecidableEq, Repr

/-- Model of `Hasher::new`. -/
def Hasher.new : HashKind → Hasher
  | .blake3 => .blake3St []
  | .xxh3 => .xxh3St []

/-- Model of `Hasher::update`: absorb more bytes. -/
def Hasher.update : Hasher → List Nat → Hasher
  | .blake3St acc, data => .blake3St (acc ++ data)
  | .xxh3St acc, data => .xxh3St (acc ++ data)

/-- Model of `Hasher::finalize`.  The Xxh3 arm uses the 9-to-16-byte digest
path of the external crate, which is the length class this development
evaluates it on. -/
def Hasher.finalize : Hasher → String
  | .blake3St acc => blake3Hex acc
  | .xxh3St acc => xxh3HexOfDigest (xxh3Len9to16 acc)

/-- The bytes of `b"Test Input"`. -/
def testInputBytes : List Nat := [84, 101, 115, 116, 32, 73, 110, 112, 117, 116]

/-! ### The chunk store and stream assembler of `src/streams/`

`src/streams/chunk.rs` and `src/streams/stream.rs` form the chunk-based
generation of the engine.  The digest function and the external zstd encoder
are passed in as parameters (`digest`, `zenc`); the `todo!()` arms for Lz4
and Xz are modelled as `Option.none` (the call panics and returns nothing). -/

namespace Streams

/-- CHUNK_SIZE of `src/streams/chunk.rs`: 16 MiB. -/
def CHUNK_SIZE : Nat := 16 * 1024 * 1024

/-- Compression options of `src/types/mod.rs` (`None` compression is the
surrounding `Option`). -/
inductive Compression where
  | zstd
  | xz
  | lz4
deriving DecidableEq, Repr

/-- Error type of `src/types/errors.rs`, restricted to the variants the
modelled code paths can produce. -/
inductive Error where
  | ioError
  | networkError
  | hashError (expected received : String)
deriving DecidableEq, Repr

/-- Chunk metadata record of `src/streams/chunk.rs`. -/
structure Chunk where
  hash : String
  disk_size : Nat
  network_size : Nat
deriving DecidableEq, Repr

/-- Stream record of `src/streams/mod.rs`. -/
structure Stream where
  hash : String
  permission : Nat
  filename : String
  chunks : List Chunk
deriving DecidableEq, Repr

/-- Unix `Permissions::set_readonly(true)`: clear the three write bits
(`mode &= !0o222`, within a 32-bit mode word). -/
def clearWriteBits (mode : Nat) : Nat := mode &&& 4294967149

/-- The bytes `Chunk::create` writes to disk for a raw buffer: the zstd
encoding under `Some(Zstd)`, the raw bytes under `None`, and no result at all
for the unimplemented `todo!()` arms `Some(Lz4)` / `Some(Xz)`. -/
def chunkEncodedData (zenc : List Nat → List Nat) :
    Option Compression → List Nat → Option (List Nat)
  | some .zstd, raw => some (zenc raw)
  | some .lz4, _ => Option.none
  | some .xz, _ => Option.none
  | Option.none, raw => some raw

/-- Model of `Chunk::create` (`src/streams/chunk.rs`): hash the raw bytes,
encode them per the compression option, record uncompressed and on-disk
sizes.  `Option.none` models the `todo!()` panic. -/
def Chunk.create (digest : List Nat → String) (zenc : List Nat → List Nat)
    (comp : Option Compression) (raw : List Nat) : Option Chunk :=
  match chunkEncodedData zenc comp raw with
  | Option.none => Option.none
  | some data => some ⟨digest raw, raw.length, data.length⟩

/-- The encoding transform actually applied on the implemented arms. -/
def encOf (zenc : List Nat → List Nat) : Option Compression → List Nat → List Nat
  | some .zstd => zenc
  | _ => fun raw => raw

/-- Whether the compression option avoids the `todo!()` arms. -/
def compImplemented : Option Compression → Bool
  | some .lz4 => false
  | some .xz => false
  | _ => true

/-- The chunk metadata produced on an implemented arm. -/
def chunkMeta (digest : List Nat → String) (zenc : List Nat → List Nat)
    (comp : Option Compression) (raw : List Nat) : Chunk :=
  ⟨digest raw, raw.length, (encOf zenc comp raw).length⟩

theorem Chunk.create_of_impl (digest : List Nat → String) (zenc : List Nat → List Nat)
    (comp : Option Compression) (raw : List Nat) (himpl : compImplemented comp = true) :
    Chunk.create digest zenc comp raw = some (chunkMeta digest zenc comp raw) := by
  cases comp with
  | none => rfl
  | some c => cases c <;> first | rfl | simp [compImplemented] at himpl

/-- The read loop of `Stream::create` (`src/streams/stream.rs`): read up to
`CHUNK_SIZE` bytes, feed the slice to the running whole-file hasher (here:
the accumulated byte list) and to `Chunk::create`, append the chunk, stop on
a zero-byte read.  Fuel-indexed; `fuel ≥ data.length` suffices since every
iteration consumes at least one byte. -/
def Stream.createLoop (digest : List Nat → String) (zenc : List Nat → List Nat)
    (comp : Option Compression) :
    Nat → List Nat → List Nat → List Chunk → Option (List Nat × List Chunk)
  | 0, data, hacc, cs => if data.isEmpty then some (hacc, cs) else Option.none
  | fuel + 1, data, hacc, cs =>
    if data.isEmpty then some (hacc, cs)
    else
      let buf := data.take CHUNK_SIZE
      match Chunk.create digest zenc comp buf with
      | Option.none => Option.none
      | some c =>
        Stream.createLoop digest zenc comp fuel (data.drop CHUNK_SIZE) (hacc ++ buf) (cs ++ [c])

/-- Model of `Stream::create` (`src/streams/stream.rs`): force the read-only
flag on the captured mode, run the chunking loop, finalize the whole-file
hasher.  `Option.none` models a panic inside `Chunk::create`. -/
def Stream.create (digest : List Nat → String) (zenc : List Nat → List Nat)
    (comp : Option Compression) (mode : Nat) (fname : String) (data : List Nat) :
    Option Stream :=
  match Stream.createLoop digest zenc comp data.length data [] [] with
  | Option.none => Option.none
  | some (hacc, cs) => some ⟨digest hacc, clearWriteBits mode, fname, cs⟩

/-- The decompressed response body inside `Chunk::download`: zstd decoding
via the external decoder `zdec` (which may fail, surfacing as an IO error),
the raw body when no compression is configured, and no result at all for the
unimplemented `todo!()` arms `Some(Lz4)` / `Some(Xz)`. -/
def chunkDecodedBody (zdec : List Nat → Except Unit (List Nat)) :
    Option Compression → List Nat → Option (Except Unit (List Nat))
  | some .zstd, raw => some (zdec raw)
  | some .lz4, _ => Option.none
  | some .xz, _ => Option.none
  | Option.none, raw => some (.ok raw)

/-- Model of `Chunk::download` (`src/streams/chunk.rs`).  `respOk` says
whether the HTTP response had a success status (`error_for_status`); `raw`
is the response body.  The outer `Option` is `none` exactly on the `todo!()`
arms; otherwise the digest of the decompressed bytes is recomputed and
compared against the chunk's recorded hash before any bytes are returned. -/
def Chunk.download (digest : List Nat → String) (zdec : List Nat → Except Unit (List Nat))
    (c : Chunk) (comp : Option Compression) (respOk : Bool) (raw : List Nat) :
    Option (Except Error (List Nat)) :=
  if respOk = false then some (.error .networkError)
  else
    match chunkDecodedBody zdec comp raw with
    | Option.none => Option.none
    | some (.error _) => some (.error .ioError)
    | some (.ok data) =>
      let hash := digest data
      if hash ≠ c.hash then some (.error (.hashError c.hash hash))
      else some (.ok data)

/-- Filesystem view of one `Stream::download` run: whether the temp file
currently exists and the bytes written to it, and the contents at the final
store path (`none` when no file is there). -/
structure DlState where
  tmpExists : Bool
  tmpData : List Nat
  final : Option (List Nat)
deriving DecidableEq, Repr

/-- The chunk loop of `Stream::download` (`src/streams/stream.rs`): download
each chunk (abstracted as `fetch`, the already-verified result of
`Chunk::download`), append its bytes to the temp file and to the running
whole-stream hasher; a failed fetch propagates, leaving the temp file as
written so far. -/
def Stream.downloadLoop (fetch : Chunk → Except Error (List Nat)) :
    List Chunk → List Nat → DlState → Except Error (List Nat) × DlState
  | [], hacc, st => (.ok hacc, st)
  | c :: rest, hacc, st =>
    match fetch c with
    | .error e => (.error e, st)
    | .ok data =>
      Stream.downloadLoop fetch rest (hacc ++ data) { st with tmpData := st.tmpData ++ data }

/-- Model of `Stream::download` (`src/streams/stream.rs`): create and lock
the temp file, download all chunks into it, then compare the aggregate
digest with the stream hash.  On mismatch, remove the temp file and fail
with a hash error carrying expected and actual digest.  On match, set the
(read-only) permissions and rename the temp file onto the final path only if
nothing exists there yet. -/
def Stream.download (digest : List Nat → String) (fetch : Chunk → Except Error (List Nat))
    (s : Stream) (final0 : Option (List Nat)) : Except Error Unit × DlState :=
  let st0 : DlState := ⟨true, [], final0⟩
  match Stream.downloadLoop fetch s.chunks [] st0 with
  | (.error e, st) => (.error e, st)
  | (.ok hacc, st) =>
    let stream_hash := digest hacc
    if stream_hash ≠ s.hash then
      (.error (.hashError s.hash stream_hash), { st with tmpExists := false, tmpData := [] })
    else
      if st.final.isNone then
        (.ok (), { st with tmpExists := false, tmpData := [], final := some st.tmpData })
      else
        (.ok (), st)

end Streams

/-! ### The compression front-end (`src/compression.rs`)

The four codec kinds dispatch to external `async_compression`
encoder/decoder pairs; those external codecs enter the model as explicit
`Codec` parameters. -/

/-- CompressionKind of `src/compression.rs`. -/
inductive CompressionKind where
  | zstd
  | xz
  | lz4
  | none
deriving DecidableEq, Repr

/-- Model of `CompressionKind::try_get_extension`. -/
def CompressionKind.try_get_extension : CompressionKind → Option String
  | .zstd => some "zstd"
  | .lz4 => some "lz4"
  | .xz => some "xz"
  | .none => Option.none

/-- Model of `CompressionKind::get_extension_with_dot`. -/
def CompressionKind.get_extension_with_dot (k : CompressionKind) : String :=
  match k.try_get_extension with
  | some e => "." ++ e
  | Option.none => ""

/-- An external streaming codec pair (an `async_compression` encoder and its
matching decoder), abstracted as the complete finalized encoding of a byte
sequence and a fallible decoding. -/
structure Codec where
  encode : List Nat → List Nat
  decode : List Nat → Except Unit (List Nat)

/-- A streaming encoder wrapped around a sink: the bytes written so far are
buffered inside the encoder until it is finalized. -/
structure EncoderState where
  buffered : List Nat
deriving DecidableEq, Repr

/-- Writing bytes through the encoder returned by `CompressionKind::compress`. -/
def encoderWrite (st : EncoderState) (data : List Nat) : EncoderState :=
  ⟨st.buffered ++ data⟩

/-- Finalizing (flush + shutdown/close) the encoder: only then does the
underlying sink hold the complete encoding of everything written. -/
def encoderFinalizeSink (encodeFn : List Nat → List Nat) (st : EncoderState) : List Nat :=
  encodeFn st.buffered

/-- The encoding transform selected by `CompressionKind::compress`: the
matching external encoder, or the identity pass-through for `None`. -/
def CompressionKind.encodeFn (z x l : Codec) : CompressionKind → List Nat → List Nat
  | .zstd => z.encode
  | .xz => x.encode
  | .lz4 => l.encode
  | .none => fun b => b

/-- The decoding transform selected by `CompressionKind::decompress`: the
matching external decoder, or the identity pass-through for `None`. -/
def CompressionKind.decodeFn (z x l : Codec) :
    CompressionKind → List Nat → Except Unit (List Nat)
  | .zstd => z.decode
  | .xz => x.decode
  | .lz4 => l.decode
  | .none => fun b => .ok b

/-- The identity codec (used to instantiate the roundtrip hypotheses). -/
def idCodec : Codec := ⟨fun b => b, fun b => .ok b⟩

/-! ### Atomic publish (`src/fs.rs` `rename`, unix branch) -/

namespace Fs

/-- A directory entry: its file type (directory or regular file) and its
complete content. -/
structure Artifact where
  isDir : Bool
  data : List Nat
deriving DecidableEq, Repr

/-- The two directory entries `rename` touches. -/
structure ExchangeFS where
  tmp : Option Artifact
  final : Option Artifact
deriving DecidableEq, Repr

/-- The empty placeholder `rename` creates at the destination when nothing
exists there (`create_dir_all` for a directory source, `write(b"")` for a
file source — the placeholder matches the source's type). -/
def placeholderFor (a : Artifact) : Artifact := ⟨a.isDir, []⟩

/-- Small-step trace of the unix `rename` (`src/fs.rs`): the initial state,
the state after the placeholder is ensured at the destination, the state
after the `RENAME_EXCHANGE`, and the state after whatever now occupies the
old name is removed.  A reader of `final_path` may observe the `final`
component of any of these states. -/
def renameStates (a : Artifact) (final0 : Option Artifact) : List ExchangeFS :=
  let prepared : Option Artifact :=
    match final0 with
    | Option.none => some (placeholderFor a)
    | some f => some f
  [⟨some a, final0⟩, ⟨some a, prepared⟩, ⟨prepared, some a⟩, ⟨Option.none, some a⟩]

end Fs

/-! ### The live stream and tree modules (`src/stream/mod.rs`, `src/tree/mod.rs`) -/

namespace StreamMod

/-- Stream record of `src/stream/mod.rs`. -/
structure Stream where
  hash : String
  file_name : String
  mode : Nat
deriving DecidableEq, Repr

/-- The value-level part of `Stream::create` (`src/stream/mod.rs`): the
whole-file digest, the entry's file name, and the file's unix mode bits,
recorded verbatim — this generation of the code does not force the read-only
flag before recording. -/
def Stream.create (digest : List Nat → String) (file_name : String) (mode : Nat)
    (data : List Nat) : Stream :=
  ⟨digest data, file_name, mode⟩

end StreamMod

/-- Symlink record of `src/tree/mod.rs`: the raw link target, never
dereferenced. -/
structure Symlink where
  file_name : String
  target : String
deriving DecidableEq, Repr

/-- Tree record of `src/tree/mod.rs`. -/
structure Tree where
  permissions : Nat
  streams : List StreamMod.Stream
  subtrees : List (String × Tree)
  symlinks : List Symlink

/-- A directory entry as `read_dir` plus `file_type()` classifies it: a
regular file (with mode and contents), a directory (with mode and its own
entries), a symlink (with its raw target), or any other file type (fifo,
socket, device, ...). -/
inductive FsEntry where
  | file (name : String) (mode : Nat) (data : List Nat)
  | dir (name : String) (mode : Nat) (entries : List FsEntry)
  | symlink (name : String) (target : String)
  | other (name : String)

mutual

/-- Model of `Tree::create` (`src/tree/mod.rs`): record the directory's own
mode bits, then walk the entries in order, classifying each one. -/
def Tree.create (digest : List Nat → String) (perms : Nat) (entries : List FsEntry) : Tree :=
  Tree.createGo digest ⟨perms, [], [], []⟩ entries

/-- The entry loop of `Tree::create`: regular file → `Stream::create`,
directory → recursive `Tree::create` keyed by the entry name, symlink →
record name and raw target; any other file type falls through the
if-else-if chain and is skipped. -/
def Tree.createGo (digest : List Nat → String) (t : Tree) : List FsEntry → Tree
  | [] => t
  | .file name mode data :: rest =>
    Tree.createGo digest
      { t with streams := t.streams ++ [StreamMod.Stream.create digest name mode data] } rest
  | .dir name mode sub :: rest =>
    Tree.createGo digest
      { t with subtrees := t.subtrees ++ [(name, Tree.create digest mode sub)] } rest
  | .symlink name target :: rest =>
    Tree.createGo digest { t with symlinks := t.symlinks ++ [⟨name, target⟩] } rest
  | .other _ :: rest => Tree.createGo digest t rest

end

/-- A filesystem action performed by `Tree::deploy`; paths are lists of
components. -/
inductive FsAction where
  | mkdirAll (path : List String)
  | linkOrCopy (src : List String) (dst : List String)
  | symlinkCreate (target : String) (linkPath : List String)
deriving DecidableEq, Repr

mutual

/-- Model of `Tree::deploy` (`src/tree/mod.rs`) as the ordered list of
filesystem actions it performs: create and deploy each subtree, hardlink
(falling back to copy) each stream from the store into the deploy path, then
create each symlink.  The symlink call passes `link.file_name` alone as the
link path — not `deploy_path.join(file_name)` — so the action's path is the
bare file name, resolved against the process working directory. -/
def Tree.deployActions : Tree → List String → List String → List FsAction
  | ⟨_, streams, subtrees, symlinks⟩, stream_dir, deploy_path =>
    Tree.deploySubtrees subtrees stream_dir deploy_path ++
    streams.map (fun s =>
      FsAction.linkOrCopy (stream_dir ++ [s.hash]) (deploy_path ++ [s.file_name])) ++
    symlinks.map (fun link => FsAction.symlinkCreate link.target [link.file_name])

/-- The subtree loop of `Tree::deploy`. -/
def Tree.deploySubtrees : List (String × Tree) → List String → List String → List FsAction
  | [], _, _ => []
  | (name, sub) :: rest, stream_dir, deploy_path =>
    (FsAction.mkdirAll (deploy_path ++ [name]) ::
      Tree.deployActions sub stream_dir (deploy_path ++ [name])) ++
    Tree.deploySubtrees rest stream_dir deploy_path

end

/-! ## Theorems -/

/-! ### Output-length facts about the hash front-end -/

theorem byteToHex_length (b : Nat) : (byteToHex b).length = 2 := rfl

theorem bytesToHex_length (bs : List Nat) : (bytesToHex bs).length = 2 * bs.length := by
  have h : ((bs.map byteToHex).flatten).length = 2 * bs.length := by
    induction bs with
    | nil => rfl
    | cons b rest ih => simp [byteToHex] at ih ⊢; omega
  simpa [bytesToHex] using h

theorem blake3Compress_length (h m : List Nat) (c bl f : Nat) :
    (blake3Compress h m c bl f).length = 8 := by
  simp [blake3Compress]

theorem chunkCVLoop_length (t base : Nat) :
    ∀ (blocks : List (List Nat)) (first : Bool) (cv : List Nat),
      cv.length = 8 → (chunkCVLoop t base first cv blocks).length = 8 := by
  intro blocks
  induction blocks with
  | nil => intro first cv hcv; simpa [chunkCVLoop] using hcv
  | cons blk rest ih =>
    intro first cv _
    simpa [chunkCVLoop] using ih false _ (blake3Compress_length ..)

theorem blake3IV_length : blake3IV.length = 8 := rfl

theorem chunkCV_length (data : List Nat) (t base : Nat) : (chunkCV data t base).length = 8 :=
  chunkCVLoop_length t base _ true blake3IV blake3IV_length

theorem subtreeCV_length (fuel : Nat) (cs : List (List Nat)) (t0 : Nat) (isRoot : Bool) :
    (subtreeCV fuel cs t0 isRoot).length = 8 := by
  match fuel, cs with
  | 0, _ => simpa [subtreeCV] using blake3IV_length
  | _ + 1, [] => simpa [subtreeCV] using blake3IV_length
  | _ + 1, [c] => simpa [subtreeCV] using chunkCV_length c t0 _
  | fuel + 1, c1 :: c2 :: rest => simpa [subtreeCV] using blake3Compress_length ..

theorem blake3Hash_length (input : List Nat) : (blake3Hash input).length = 32 := by
  have h : ∀ l : List Nat, ((l.map u32LEBytes).flatten).length = 4 * l.length := by
    intro l
    induction l with
    | nil => rfl
    | cons w rest ih => simp [u32LEBytes] at ih ⊢; omega
  simp only [blake3Hash, h, subtreeCV_length]

theorem blake3Hex_length (input : List Nat) : (blake3Hex input).length = 64 := by
  simp [blake3Hex, bytesToHex_length, blake3Hash_length]

theorem u64LEBytes_length (x : Nat) : (u64LEBytes x).length = 8 := by
  simp [u64LEBytes]

theorem xxh3HexOfDigest_length (d : Nat) : (xxh3HexOfDigest d).length = 16 := by
  simp [xxh3HexOfDigest, bytesToHex_length, u64LEBytes_length]

/-! ### Generic facts about fixed-size chunking -/

theorem chunksOfF_nil (n fuel : Nat) : chunksOfF (α := α) n fuel [] = [] := by
  cases fuel <;> rfl

theorem chunksOfF_flatten (n : Nat) (hn : 0 < n) :
    ∀ (fuel : Nat) (l : List α), l.length ≤ fuel → (chunksOfF n fuel l).flatten = l := by
  intro fuel
  induction fuel with
  | zero =>
    intro l hl
    have : l = [] := List.eq_nil_of_length_eq_zero (Nat.le_zero.mp hl)
    simp [this, chunksOfF]
  | succ fuel ih =>
    intro l hl
    cases l with
    | nil => rfl
    | cons x xs =>
      have hdrop : ((x :: xs).drop n).length ≤ fuel := by
        simp only [List.length_drop, List.length_cons]
        simp only [List.length_cons] at hl
        omega
      simp only [chunksOfF, List.flatten_cons, ih _ hdrop, List.take_append_drop]

theorem chunksOfF_count (n : Nat) (hn : 0 < n) :
    ∀ (fuel : Nat) (l : List α), l.length ≤ fuel → l ≠ [] →
      (chunksOfF n fuel l).length = (l.length + n - 1) / n := by
  intro fuel
  induction fuel with
  | zero =>
    intro l hl hne
    exact absurd (List.eq_nil_of_length_eq_zero (Nat.le_zero.mp hl)) hne
  | succ fuel ih =>
    intro l hl hne
    cases l with
    | nil => exact absurd rfl hne
    | cons x xs =>
      by_cases hlen : (x :: xs).length ≤ n
      · have hdrop : (x :: xs).drop n = [] := List.drop_of_length_le hlen
        simp only [List.length_cons] at hlen
        simp only [chunksOfF, hdrop, chunksOfF_nil, List.length_cons, List.length_nil]
        exact (Nat.div_eq_of_lt_le (by omega) (by omega)).symm
      · push_neg at hlen
        simp only [List.length_cons] at hlen
        have hdroplen : ((x :: xs).drop n).length ≤ fuel := by
          simp only [List.length_drop, List.length_cons]
          simp only [List.length_cons] at hl
          omega
        have hdropne : (x :: xs).drop n ≠ [] := by
          intro h
          have := congrArg List.length h
          simp only [List.length_drop, List.length_cons, List.length_nil] at this
          omega
        have hrec := ih _ hdroplen hdropne
        simp only [chunksOfF, List.length_cons, hrec, List.length_drop]
        have h1 : xs.length + 1 - n + n - 1 = xs.length := by omega
        have h2 : xs.length + 1 + n - 1 = xs.length + n := by omega
        rw [h1, h2, Nat.add_div_right _ hn]

theorem chunksOfF_mem_length (n : Nat) :
    ∀ (fuel : Nat) (l : List α) (p : List α), p ∈ chunksOfF n fuel l → p.length ≤ n := by
  intro fuel
  induction fuel with
  | zero => intro l p hp; simp [chunksOfF] at hp
  | succ fuel ih =>
    intro l p hp
    cases l with
    | nil => simp [chunksOfF] at hp
    | cons x xs =>
      simp only [chunksOfF, List.mem_cons] at hp
      rcases hp with h | h
      · subst h
        simp [Nat.min_le_left n (x :: xs).length]
      · exact ih _ p h

/-! ### Claim C1: chunking in `Stream::create` -/

namespace Streams

theorem chunk_size_pos : 0 < CHUNK_SIZE := by norm_num [CHUNK_SIZE]

/-- On an implemented compression arm, the read loop of `Stream::create`
absorbs exactly the file bytes and produces one chunk per
`CHUNK_SIZE`-slice, in read order. -/
theorem Stream.createLoop_ok (digest : List Nat → String) (zenc : List Nat → List Nat)
    (comp : Option Compression) (himpl : compImplemented comp = true) :
    ∀ (fuel : Nat) (data hacc : List Nat) (cs : List Chunk), data.length ≤ fuel →
      Stream.createLoop digest zenc comp fuel data hacc cs =
        some (hacc ++ data,
          cs ++ (chunksOfF CHUNK_SIZE fuel data).map (chunkMeta digest zenc comp)) := by
  intro fuel
  induction fuel with
  | zero =>
    intro data hacc cs hlen
    have hdata : data = [] := List.eq_nil_of_length_eq_zero (Nat.le_zero.mp hlen)
    subst hdata
    simp [Stream.createLoop, chunksOfF]
  | succ fuel ih =>
    intro data hacc cs hlen
    cases data with
    | nil => simp [Stream.createLoop, chunksOfF]
    | cons x xs =>
      have hdrop : ((x :: xs).drop CHUNK_SIZE).length ≤ fuel := by
        simp only [List.length_drop, List.length_cons]
        simp only [List.length_cons] at hlen
        have := chunk_size_pos
        omega
      have hstep : Stream.createLoop digest zenc comp (fuel + 1) (x :: xs) hacc cs =
          Stream.createLoop digest zenc comp fuel ((x :: xs).drop CHUNK_SIZE)
            (hacc ++ (x :: xs).take CHUNK_SIZE)
            (cs ++ [chunkMeta digest zenc comp ((x :: xs).take CHUNK_SIZE)]) := by
        simp [Stream.createLoop, Chunk.create_of_impl digest zenc comp _ himpl]
      rw [hstep, ih _ _ _ hdrop]
      simp [chunksOfF, List.append_assoc]

/-- C1: `Stream::create` splits the file contents into slices of at most
`CHUNK_SIZE` raw bytes each, in read order: the returned chunk list is
exactly the per-slice metadata, the concatenation of the slices is the file
byte for byte, a nonempty file of `n` bytes yields `⌈n / CHUNK_SIZE⌉`
chunks, an empty file yields zero chunks and the digest of empty input, and
the stream hash is the digest of the whole file, computed from the running
whole-file hasher independently of the per-chunk hashes. -/
theorem stream_create_chunking (digest : List Nat → String) (zenc : List Nat → List Nat)
    (comp : Option Compression) (mode : Nat) (fname : String) (data : List Nat)
    (st : Stream) (hres : Stream.create digest zenc comp mode fname data = some st) :
    st.chunks = (chunksOf CHUNK_SIZE data).map (chunkMeta digest zenc comp) ∧
    (chunksOf CHUNK_SIZE data).flatten = data ∧
    (∀ piece ∈ chunksOf CHUNK_SIZE data, piece.length ≤ CHUNK_SIZE) ∧
    (data ≠ [] → st.chunks.length = (data.length + CHUNK_SIZE - 1) / CHUNK_SIZE) ∧
    (data = [] → st.chunks = [] ∧ st.hash = digest []) ∧
    st.hash = digest data := by
  have hflat : (chunksOf CHUNK_SIZE data).flatten = data :=
    chunksOfF_flatten CHUNK_SIZE chunk_size_pos data.length data (Nat.le_refl _)
  have hmem : ∀ piece ∈ chunksOf CHUNK_SIZE data, piece.length ≤ CHUNK_SIZE :=
    fun p hp => chunksOfF_mem_length CHUNK_SIZE data.length data p hp
  cases himpl : compImplemented comp with
  | true =>
    rw [Stream.create,
      Stream.createLoop_ok digest zenc comp himpl data.length data [] [] (Nat.le_refl _)] at hres
    simp only [List.nil_append, Option.some.injEq] at hres
    subst hres
    refine ⟨rfl, hflat, hmem, ?_, ?_, rfl⟩
    · intro hne
      simp only [List.length_map]
      exact chunksOfF_count CHUNK_SIZE chunk_size_pos data.length data (Nat.le_refl _) hne
    · intro hnil
      subst hnil
      exact ⟨rfl, rfl⟩
  | false =>
    cases data with
    | nil =>
      simp only [Stream.create, Stream.createLoop, List.length_nil, List.isEmpty_nil,
        if_true, Option.some.injEq] at hres
      subst hres
      exact ⟨rfl, hflat, hmem, fun hne => absurd rfl hne, fun _ => ⟨rfl, rfl⟩, rfl⟩
    | cons x xs =>
      exfalso
      rcases comp with _ | c
      · simp [compImplemented] at himpl
      · cases c with
        | zstd => simp [compImplemented] at himpl
        | xz =>
          simp [Stream.create, Stream.createLoop, Chunk.create, chunkEncodedData] at hres
        | lz4 =>
          simp [Stream.create, Stream.createLoop, Chunk.create, chunkEncodedData] at hres

/-- Witness for C1: a three-byte file with no compression yields one chunk,
the ceiling count, and slices concatenating back to the file. -/
theorem stream_create_chunking_witness :
    (chunksOf CHUNK_SIZE [1, 2, 3]).flatten = [1, 2, 3] ∧
    (Stream.mk "h" 292 "f" [⟨"h", 3, 3⟩]).chunks.length =
      (([1, 2, 3] : List Nat).length + CHUNK_SIZE - 1) / CHUNK_SIZE := by
  have h := stream_create_chunking (fun _ => "h") (fun l => l) Option.none 420 "f"
    [1, 2, 3] ⟨"h", 292, "f", [⟨"h", 3, 3⟩]⟩ (by decide)
  exact ⟨h.2.1, h.2.2.2.1 (by decide)⟩

end Streams

/-- C9: `Hasher::new(Blake3)` updated with `b"Test Input"` finalizes to the
64-hex-character golden digest, `Hasher::new(Xxh3)` updated with the same
bytes finalizes to the 16-hex-character golden digest, and for every input
the Blake3 digest string has 64 characters while every Xxh3 digest value
renders as a 16-character hex string. -/
theorem hasher_golden_vectors_and_lengths :
    ((Hasher.new .blake3).update testInputBytes).finalize =
      "333ea0accb9fbcab70b14d102ef9c98c9df7060a72c95b46322aa8ad09a6ec51" ∧
    ((Hasher.new .xxh3).update testInputBytes).finalize = "9ecc4f8d8238ad80" ∧
    (∀ input : List Nat, (((Hasher.new .blake3).update input).finalize).length = 64) ∧
    (∀ input : List Nat, (((Hasher.new .xxh3).update input).finalize).length = 16) ∧
    (∀ d : Nat, (xxh3HexOfDigest d).length = 16) := by
  refine ⟨by decide, by decide, ?_, ?_, xxh3HexOfDigest_length⟩
  · intro input
    simpa [Hasher.new, Hasher.update, Hasher.finalize] using blake3Hex_length input
  · intro input
    simpa [Hasher.new, Hasher.update, Hasher.finalize] using xxh3HexOfDigest_length _

/-! ### Claim C2: verification in `Chunk::download` -/

namespace Streams

/-- C2: `Chunk::download` hands bytes to the caller only when the recomputed
digest of the decompressed response body equals the chunk's recorded hash;
when the digests differ it returns a hash-mismatch error carrying the
expected digest and the actual digest, and no bytes. -/
theorem chunk_download_verifies (digest : List Nat → String)
    (zdec : List Nat → Except Unit (List Nat)) (c : Chunk) (comp : Option Compression)
    (respOk : Bool) (raw d : List Nat) :
    (Chunk.download digest zdec c comp respOk raw = some (.ok d) → digest d = c.hash) ∧
    (respOk = true → chunkDecodedBody zdec comp raw = some (.ok d) → digest d ≠ c.hash →
      Chunk.download digest zdec c comp respOk raw =
        some (.error (.hashError c.hash (digest d)))) := by
  constructor
  · intro hres
    rw [Chunk.download] at hres
    cases respOk with
    | false => simp at hres
    | true =>
      simp only [Bool.true_eq_false, if_false] at hres
      cases hbody : chunkDecodedBody zdec comp raw with
      | none => rw [hbody] at hres; cases hres
      | some r =>
        rw [hbody] at hres
        cases r with
        | error e => simp at hres
        | ok data =>
          dsimp only at hres
          by_cases h : digest data = c.hash
          · rw [if_neg (fun hne => hne h)] at hres
            simp only [Option.some.injEq, Except.ok.injEq] at hres
            subst hres
            exact h
          · rw [if_pos h] at hres
            simp at hres
  · intro hr hbody hd
    subst hr
    rw [Chunk.download]
    simp only [Bool.true_eq_false, if_false, hbody]
    rw [if_pos hd]

/-- Witness for C2: a one-byte body with no compression, once against a
chunk whose hash matches (bytes returned, digests equal) and once against a
mismatching hash (hash error carrying both digests). -/
theorem chunk_download_verifies_witness :
    bytesToHex [7] = (Chunk.mk "07" 1 1).hash ∧
    Chunk.download bytesToHex (fun b => Except.ok b) ⟨"ff", 1, 1⟩ Option.none true [7] =
      some (.error (.hashError "ff" (bytesToHex [7]))) := by
  constructor
  · exact (chunk_download_verifies bytesToHex (fun b => Except.ok b) ⟨"07", 1, 1⟩
      Option.none true [7] [7]).1 rfl
  · exact (chunk_download_verifies bytesToHex (fun b => Except.ok b) ⟨"ff", 1, 1⟩
      Option.none true [7] [7]).2 rfl rfl (by decide)

/-! ### Claim C6: the `todo!()` compression arms -/

/-- C6: evaluation of the compression dispatch of `src/streams/chunk.rs`:
for `Some(Lz4)` and `Some(Xz)` both `Chunk::create` and `Chunk::download`
reach the unimplemented `todo!()` branch and panic (modelled as `none`),
while the `Some(Zstd)` and `None` arms complete. -/
theorem chunk_todo_arms_panic :
    Chunk.create bytesToHex (fun l => l) (some .lz4) [0] = Option.none ∧
    Chunk.create bytesToHex (fun l => l) (some .xz) [0] = Option.none ∧
    Chunk.download bytesToHex (fun b => Except.ok b) ⟨"00", 1, 1⟩ (some .lz4) true [0] =
      Option.none ∧
    Chunk.download bytesToHex (fun b => Except.ok b) ⟨"00", 1, 1⟩ (some .xz) true [0] =
      Option.none ∧
    Chunk.create bytesToHex (fun l => l) (some .zstd) [0] = some ⟨bytesToHex [0], 1, 1⟩ ∧
    Chunk.create bytesToHex (fun l => l) Option.none [0] = some ⟨bytesToHex [0], 1, 1⟩ :=
  ⟨rfl, rfl, rfl, rfl, rfl, rfl⟩

/-! ### Claim C3: aggregate verification in `Stream::download` -/

/-- When every chunk fetch succeeds, the download loop writes exactly the
concatenation of the fetched bytes and absorbs it into the hasher. -/
theorem Stream.downloadLoop_ok (fetch : Chunk → Except Error (List Nat))
    (chunks : List Chunk) (bs : List (List Nat))
    (hf : List.Forall₂ (fun c b => fetch c = Except.ok b) chunks bs) :
    ∀ (hacc : List Nat) (st : DlState),
      Stream.downloadLoop fetch chunks hacc st =
        (.ok (hacc ++ bs.flatten), { st with tmpData := st.tmpData ++ bs.flatten }) := by
  induction hf with
  | nil => intro hacc st; simp [Stream.downloadLoop]
  | cons hcb hrest ih =>
    intro hacc st
    simp only [Stream.downloadLoop, hcb, ih, List.flatten_cons, List.append_assoc]

/-- C3: if every chunk fetch succeeds but the aggregate digest of all
downloaded chunk bytes differs from the stream hash, `Stream::download`
deletes the temp file, returns a hash error carrying expected and actual
digest, and leaves the final store path exactly as it was — in particular,
when nothing was published there before, no file is there after. -/
theorem stream_download_bad_hash (digest : List Nat → String)
    (fetch : Chunk → Except Error (List Nat)) (s : Stream) (final0 : Option (List Nat))
    (bs : List (List Nat))
    (hfetch : List.Forall₂ (fun c b => fetch c = Except.ok b) s.chunks bs)
    (hmis : digest bs.flatten ≠ s.hash) :
    Stream.download digest fetch s final0 =
      (.error (.hashError s.hash (digest bs.flatten)), ⟨false, [], final0⟩) ∧
    (final0 = Option.none → (Stream.download digest fetch s final0).2.final = Option.none) := by
  have hloop := Stream.downloadLoop_ok fetch s.chunks bs hfetch [] ⟨true, [], final0⟩
  have hmain : Stream.download digest fetch s final0 =
      (.error (.hashError s.hash (digest bs.flatten)), ⟨false, [], final0⟩) := by
    rw [Stream.download, hloop]
    simp [hmis]
  exact ⟨hmain, fun h0 => by subst h0; simp [hmain]⟩

/-- Witness for C3: a one-chunk stream whose fetched bytes hash to a digest
different from the recorded stream hash. -/
theorem stream_download_bad_hash_witness :
    Stream.download bytesToHex (fun _ => Except.ok [5]) ⟨"HH", 420, "f", [⟨"c", 1, 1⟩]⟩
        Option.none =
      (.error (.hashError "HH" (bytesToHex [5])), ⟨false, [], Option.none⟩) ∧
    (Stream.download bytesToHex (fun _ => Except.ok [5]) ⟨"HH", 420, "f", [⟨"c", 1, 1⟩]⟩
        Option.none).2.final = Option.none := by
  have h := stream_download_bad_hash bytesToHex (fun _ => Except.ok [5])
    ⟨"HH", 420, "f", [⟨"c", 1, 1⟩]⟩ Option.none [[5]]
    (List.Forall₂.cons rfl List.Forall₂.nil) (by decide)
  exact ⟨h.1, h.2 rfl⟩

end Streams

/-! ### Claim C4: compression roundtrip -/

/-- C4: for every `CompressionKind` and every byte sequence, writing the
bytes through `compress` into a sink, finalizing the encoder, and reading
the sink back through `decompress` yields exactly the input — given that
each external encoder/decoder pair satisfies its decode-encode roundtrip
contract (the repository's contribution, verified here, is that `compress`
and `decompress` select matching pairs; the `None` arm is the identity
pass-through in the code itself and needs no hypothesis). -/
theorem compression_roundtrip (z x l : Codec)
    (hz : ∀ b, z.decode (z.encode b) = Except.ok b)
    (hx : ∀ b, x.decode (x.encode b) = Except.ok b)
    (hl : ∀ b, l.decode (l.encode b) = Except.ok b) :
    ∀ (k : CompressionKind) (input : List Nat),
      CompressionKind.decodeFn z x l k
        (encoderFinalizeSink (CompressionKind.encodeFn z x l k) (encoderWrite ⟨[]⟩ input)) =
      Except.ok input := by
  intro k input
  cases k <;>
    simp [CompressionKind.decodeFn, CompressionKind.encodeFn, encoderFinalizeSink,
      encoderWrite, hz, hx, hl]

/-- Witness for C4: the identity codec satisfies the roundtrip hypotheses,
and the roundtrip holds at a concrete input for the Zstd and None arms. -/
theorem compression_roundtrip_witness :
    (∀ b : List Nat, idCodec.decode (idCodec.encode b) = Except.ok b) ∧
    CompressionKind.decodeFn idCodec idCodec idCodec CompressionKind.zstd
        (encoderFinalizeSink (CompressionKind.encodeFn idCodec idCodec idCodec .zstd)
          (encoderWrite ⟨[]⟩ [0, 1, 2])) = Except.ok [0, 1, 2] ∧
    CompressionKind.decodeFn idCodec idCodec idCodec CompressionKind.none
        (encoderFinalizeSink (CompressionKind.encodeFn idCodec idCodec idCodec .none)
          (encoderWrite ⟨[]⟩ [0, 1, 2])) = Except.ok [0, 1, 2] :=
  ⟨fun _ => rfl,
   compression_roundtrip idCodec idCodec idCodec (fun _ => rfl) (fun _ => rfl) (fun _ => rfl)
     .zstd [0, 1, 2],
   compression_roundtrip idCodec idCodec idCodec (fun _ => rfl) (fun _ => rfl) (fun _ => rfl)
     .none [0, 1, 2]⟩

/-! ### Claim C5: the rename-exchange publish -/

namespace Fs

/-- Counterexample for C5: publishing to an initially absent `final_path`
goes through an intermediate state in which a reader of `final_path`
observes the empty placeholder — neither the old state (absent) nor the
complete new artifact. -/
theorem rename_intermediate_placeholder_visible :
    ∃ s ∈ renameStates ⟨false, [1]⟩ Option.none,
      s.final ≠ Option.none ∧ s.final ≠ some ⟨false, [1]⟩ := by
  decide

/-- C5 (amended): along the unix `rename` trace, a reader of `final_path`
observes only the old artifact, the complete new artifact, or — only when
`final_path` was initially absent — an empty placeholder of the new
artifact's file type; when a complete artifact already existed at
`final_path`, every intermediate state shows either it or the complete new
artifact; and after `rename` returns, `final_path` holds the artifact that
was at `tmp_path` and `tmp_path`'s old name no longer exists. -/
theorem rename_exchange_trace (a : Artifact) (final0 : Option Artifact) :
    (∀ s ∈ renameStates a final0,
      s.final = final0 ∨ s.final = some a ∨
        (final0 = Option.none ∧ s.final = some (placeholderFor a))) ∧
    (final0 ≠ Option.none →
      ∀ s ∈ renameStates a final0, s.final = final0 ∨ s.final = some a) ∧
    (renameStates a final0).getLast? = some ⟨Option.none, some a⟩ := by
  cases final0 with
  | none =>
    refine ⟨?_, fun h => absurd rfl h, rfl⟩
    intro s hs
    simp only [renameStates, List.mem_cons, List.not_mem_nil, or_false] at hs
    rcases hs with h | h | h | h <;> subst h <;> simp
  | some f =>
    refine ⟨?_, ?_, rfl⟩
    · intro s hs
      simp only [renameStates, List.mem_cons, List.not_mem_nil, or_false] at hs
      rcases hs with h | h | h | h <;> subst h <;> simp
    · intro _ s hs
      simp only [renameStates, List.mem_cons, List.not_mem_nil, or_false] at hs
      rcases hs with h | h | h | h <;> subst h <;> simp

/-- Witness for C5 (amended): with an artifact already present at
`final_path`, every state of the trace shows the old or the new artifact,
and the final state publishes the new artifact and clears the old name. -/
theorem rename_exchange_trace_witness :
    (∀ s ∈ renameStates ⟨false, [1]⟩ (some ⟨false, [2]⟩),
      s.final = some ⟨false, [2]⟩ ∨ s.final = some ⟨false, [1]⟩) ∧
    (renameStates ⟨false, [1]⟩ (some ⟨false, [2]⟩)).getLast? =
      some ⟨Option.none, some ⟨false, [1]⟩⟩ := by
  have h := rename_exchange_trace ⟨false, [1]⟩ (some ⟨false, [2]⟩)
  exact ⟨h.2.1 (by decide), h.2.2⟩

end Fs

/-! ### Claim C8: recorded permissions -/

theorem testBit_land_mask (m : Nat) (i : Nat) :
    (Streams.clearWriteBits m).testBit i = (m.testBit i && Nat.testBit 4294967149 i) := by
  simp [Streams.clearWriteBits, Nat.testBit_land]

/-- Clearing the write bits really leaves no write bit set. -/
theorem clearWriteBits_no_write (m : Nat) : Streams.clearWriteBits m &&& 146 = 0 := by
  apply Nat.eq_of_testBit_eq
  intro i
  rw [Nat.testBit_land, testBit_land_mask, Bool.and_assoc, ← Nat.testBit_land]
  have h : (4294967149 : Nat) &&& 146 = 0 := by decide
  simp [h]

/-- Counterexample for C8: the live `Stream::create` (`src/stream/mod.rs`)
records the file's mode verbatim; a file with mode `0o644` yields a Stream
whose recorded mode still carries write bits. -/
theorem stream_create_mode_kept_writable :
    (StreamMod.Stream.create bytesToHex "f" 420 []).mode = 420 ∧ 420 &&& 146 ≠ 0 :=
  ⟨rfl, by decide⟩

/-- C8 (amended): `Stream::create` of `src/streams/stream.rs` forces the
read-only flag before recording, so the recorded permission has no write
bits (`mode & 0o222 = 0`); `Stream::create` of `src/stream/mod.rs` records
the file's mode bits unmodified, which may be writable. -/
theorem stream_create_recorded_modes (digest : List Nat → String)
    (zenc : List Nat → List Nat) (comp : Option Streams.Compression) (mode : Nat)
    (fname : String) (data : List Nat) (st : Streams.Stream)
    (hres : Streams.Stream.create digest zenc comp mode fname data = some st) :
    st.permission = Streams.clearWriteBits mode ∧
    st.permission &&& 146 = 0 ∧
    (StreamMod.Stream.create digest fname mode data).mode = mode := by
  have hperm : st.permission = Streams.clearWriteBits mode := by
    rw [Streams.Stream.create] at hres
    cases hloop : Streams.Stream.createLoop digest zenc comp data.length data [] [] with
    | none => rw [hloop] at hres; cases hres
    | some r =>
      rw [hloop] at hres
      simp only [Option.some.injEq] at hres
      subst hres
      rfl
  exact ⟨hperm, hperm ▸ clearWriteBits_no_write mode, rfl⟩

/-- Witness for C8 (amended): mode `0o644` is recorded as `0o444` (no write
bits) by the chunked `Stream::create`, and verbatim by the live one. -/
theorem stream_create_recorded_modes_witness :
    (Streams.Stream.mk "h" 292 "f" [⟨"h", 3, 3⟩]).permission &&& 146 = 0 ∧
    (StreamMod.Stream.create bytesToHex "f" 420 [1, 2, 3]).mode = 420 := by
  have h := stream_create_recorded_modes (fun _ => "h") (fun l => l) Option.none 420 "f"
    [1, 2, 3] ⟨"h", 292, "f", [⟨"h", 3, 3⟩]⟩ (by decide)
  exact ⟨h.2.1, rfl⟩

/-! ### Claim C7: symlink placement in `Tree::deploy` -/

/-- C7: evaluation at a tree holding one symlink: `Tree::deploy` emits the
symlink-creation action with the recorded target unmodified, but with the
bare `file_name` as the link path (resolved against the process working
directory), not `deploy_path` joined with the file name. -/
theorem tree_deploy_symlink_misplaced :
    Tree.deployActions ⟨493, [], [], [⟨"ln", "tgt"⟩]⟩ ["store"] ["dst"] =
      [FsAction.symlinkCreate "tgt" ["ln"]] ∧
    (["ln"] : List String) ≠ ["dst", "ln"] := by
  constructor
  · simp [Tree.deployActions, Tree.deploySubtrees]
  · decide

/-! ### Claim C10: `Tree::create` skips unclassified entries -/

/-- The entry loop of `Tree::create` appends, to each of the three vectors,
exactly the classified translations of the entries, in order. -/
theorem Tree.createGo_spec (digest : List Nat → String) :
    ∀ (entries : List FsEntry) (t : Tree),
      Tree.createGo digest t entries =
        ⟨t.permissions,
         t.streams ++ entries.filterMap (fun e => match e with
           | .file name mode data => some (StreamMod.Stream.create digest name mode data)
           | _ => Option.none),
         t.subtrees ++ entries.filterMap (fun e => match e with
           | .dir name mode sub => some (name, Tree.create digest mode sub)
           | _ => Option.none),
         t.symlinks ++ entries.filterMap (fun e => match e with
           | .symlink name target => some (Symlink.mk name target)
           | _ => Option.none)⟩ := by
  intro entries
  induction entries with
  | nil => intro t; cases t; simp [Tree.createGo]
  | cons e rest ih =>
    intro t
    cases e <;> simp [Tree.createGo, ih, List.filterMap_cons, List.append_assoc]

/-- C10: `Tree::create` silently omits every entry whose type is neither a
regular file, a directory, nor a symlink, and returns (with no error) a tree
holding exactly the streams, named subtrees, and symlinks built from the
other entries, in directory order. -/
theorem tree_create_skips_other_entries (digest : List Nat → String) (perms : Nat)
    (entries : List FsEntry) :
    (Tree.create digest perms entries).permissions = perms ∧
    (Tree.create digest perms entries).streams =
      entries.filterMap (fun e => match e with
        | .file name mode data => some (StreamMod.Stream.create digest name mode data)
        | _ => Option.none) ∧
    (Tree.create digest perms entries).subtrees =
      entries.filterMap (fun e => match e with
        | .dir name mode sub => some (name, Tree.create digest mode sub)
        | _ => Option.none) ∧
    (Tree.create digest perms entries).symlinks =
      entries.filterMap (fun e => match e with
        | .symlink name target => some (Symlink.mk name target)
        | _ => Option.none) := by
  rw [Tree.create, Tree.createGo_spec digest entries]
  exact ⟨rfl, by simp, by simp, by simp⟩

end SyncStream
